import Mathlib

/-!
Shallow embedding of the dep-res library (src/lib.rs): a dependency
resolver that groups identifiers of a dependency graph into ordinal
levels.  Concurrent containers (DashSet, DashMap) are modelled as
`Finset` and as functions into `Option (Finset _)`; the parallel
iterations of the source are modelled by their (commutative) sequential
counterparts.
-/

set_option linter.unusedVariables false
set_option linter.unusedSectionVars false

/-- Errors returned by `DepRes::resolve` (lib.rs lines 215-221). -/
inductive DepResolveError where
  | islandsOrCircular
  | internalDataError
deriving DecidableEq

/-- The graph accumulator `DepRes` (lib.rs lines 75-79): the set of known
identifiers (`ids : DashSet<Id>`) and the dependency mapping
(`deps : DashMap<Id, DashSet<Id>>`).  A map entry `id ↦ set` is modelled
as `deps id = some set`; an absent entry as `deps id = none`. -/
@[ext]
structure DepRes (Id : Type) where
  ids : Finset Id
  deps : Id → Option (Finset Id)

/-- Model of `DepRes::new` (lib.rs lines 82-88): empty identifier set, empty map. -/
def DepRes.new {Id : Type} : DepRes Id := ⟨∅, fun _ => none⟩

/-- An item as seen through the `DepMeta` capability (lib.rs lines 15-21):
its identifier (`get_id`) and its list of dependency identifiers
(`get_deps`). -/
structure DepItem (Id : Type) where
  id : Id
  deps : List Id

variable {Id : Type} [DecidableEq Id]

/-- One insertion
`self.deps.entry(id).or_insert_with(DashSet::new).insert(dep)`
(lib.rs lines 101-105): fetch (or create empty) the entry of `i` and
insert `d` into it. -/
def DepRes.insertDep (g : DepRes Id) (i d : Id) : DepRes Id :=
  { g with deps := fun x => if x = i then some (insert d ((g.deps i).getD ∅)) else g.deps x }

/-- The final `self.ids.insert(id)` of an `add` item (lib.rs line 108). -/
def DepRes.insertId (g : DepRes Id) (i : Id) : DepRes Id :=
  { g with ids := insert i g.ids }

/-- The per-item body of `DepRes::add` (lib.rs lines 95-109): when the
item's dependency list is non-empty, insert every dependency into the
entry keyed by the item's identifier; then insert the identifier into the
identifier set. -/
def DepRes.addItem (g : DepRes Id) (it : DepItem Id) : DepRes Id :=
  (if it.deps.isEmpty then g
   else it.deps.foldl (fun acc d => acc.insertDep it.id d) g).insertId it.id

/-- Model of `DepRes::add` (lib.rs lines 91-110).  The source processes the batch
with `par_iter().for_each`; since every per-item update is a commutative,
idempotent set insertion, the batch is modelled as a fold over the item
list. -/
def DepRes.add (g : DepRes Id) (items : List (DepItem Id)) : DepRes Id :=
  items.foldl DepRes.addItem g

/-- The test `deps.par_iter().any(|d| last.contains(d))` guarded by the
successful entry lookup (lib.rs lines 183-184): the identifier has a
recorded dependency entry, and some recorded dependency lies in `last`. -/
def hasDepIn (deps : Id → Option (Finset Id)) (last : Finset Id) (id : Id) : Prop :=
  ∃ ds, deps id = some ds ∧ ∃ d ∈ ds, d ∈ last

instance hasDepIn.instDecidable (deps : Id → Option (Finset Id)) (last : Finset Id) (id : Id) :
    Decidable (hasDepIn deps last id) :=
  decidable_of_iff (∃ d ∈ (deps id).getD ∅, d ∈ last) (by
    cases h : deps id <;> simp [hasDepIn, h])

/-- The `loop` of `DepRes::resolve` (lib.rs lines 178-211).  One pass
examines every pending identifier: an identifier with no dependency
entry raises the internal-data-error flag; one with a recorded
dependency in the previous level `last` joins the candidate set `lvn`;
the rest stay pending.  After the pass: flagged ⇒ `InternalDataError`;
empty `lvn` with empty pending ⇒ success; empty `lvn` with non-empty
pending ⇒ `IslandsOrCircular`; otherwise record `lvn` as level `lv` and
continue. -/
def resolveLoop (deps : Id → Option (Finset Id)) (last other : Finset Id) (lv : Nat)
    (lvs : List (Nat × Finset Id)) : Except DepResolveError (List (Nat × Finset Id)) :=
  if ∃ id ∈ other, deps id = none then .error .internalDataError
  else if h : other.filter (hasDepIn deps last) = ∅ then
    if other = ∅ then .ok lvs else .error .islandsOrCircular
  else
    resolveLoop deps (other.filter (hasDepIn deps last))
      (other.filter fun id => (deps id).isSome ∧ ¬ hasDepIn deps last id) (lv + 1)
      (lvs ++ [(lv, other.filter (hasDepIn deps last))])
termination_by other.card
decreasing_by
  obtain ⟨x, hx⟩ := Finset.nonempty_iff_ne_empty.mpr h
  have hxo : x ∈ other := (Finset.mem_filter.mp hx).1
  have hxd : hasDepIn deps last x := (Finset.mem_filter.mp hx).2
  refine Finset.card_lt_card ?_
  rw [Finset.ssubset_iff_subset_ne]
  refine ⟨Finset.filter_subset _ _, fun he => ?_⟩
  have hxn : x ∈ other.filter fun id => (deps id).isSome ∧ ¬ hasDepIn deps last id := by
    rw [he]; exact hxo
  exact (Finset.mem_filter.mp hxn).2.2 hxd

/-- Fuel-indexed mirror of `resolveLoop`, used to evaluate the loop on
concrete inputs and to state its termination bound: with more fuel than
pending identifiers it returns `some` of the loop's value. -/
def resolveLoopF (deps : Id → Option (Finset Id)) :
    Nat → Finset Id → Finset Id → Nat → List (Nat × Finset Id) →
      Option (Except DepResolveError (List (Nat × Finset Id)))
  | 0, _, _, _, _ => none
  | fuel + 1, last, other, lv, lvs =>
    if ∃ id ∈ other, deps id = none then some (.error .internalDataError)
    else if other.filter (hasDepIn deps last) = ∅ then
      if other = ∅ then some (.ok lvs) else some (.error .islandsOrCircular)
    else
      resolveLoopF deps fuel (other.filter (hasDepIn deps last))
        (other.filter fun id => (deps id).isSome ∧ ¬ hasDepIn deps last id) (lv + 1)
        (lvs ++ [(lv, other.filter (hasDepIn deps last))])

/-- The `Either::Left` side of the partition at lib.rs lines 159-166:
identifiers with no entry in the dependency mapping. -/
def rootsOf (g : DepRes Id) : Finset Id :=
  g.ids.filter fun id => (g.deps id).isNone

/-- The `Either::Right` side of the partition at lib.rs lines 159-166:
identifiers with a recorded dependency entry. -/
def othersOf (g : DepRes Id) : Finset Id :=
  g.ids.filter fun id => (g.deps id).isSome

/-- Model of `DepRes::resolve` (lib.rs lines 152-212): empty identifier set ⇒
zero levels; no roots ⇒ `IslandsOrCircular`; otherwise record the roots
as level 0 and run the leveling loop.  The result `lvs` is the level
map, listed as (level, identifier set) pairs in insertion order. -/
def DepRes.resolve (g : DepRes Id) : Except DepResolveError (List (Nat × Finset Id)) :=
  if g.ids = ∅ then .ok []
  else if rootsOf g = ∅ then .error .islandsOrCircular
  else resolveLoop g.deps (rootsOf g) (othersOf g) 1 [(0, rootsOf g)]

/-- Fuel-indexed mirror of `DepRes.resolve` built on `resolveLoopF`. -/
def resolveF (g : DepRes Id) (fuel : Nat) :
    Option (Except DepResolveError (List (Nat × Finset Id))) :=
  if g.ids = ∅ then some (.ok [])
  else if rootsOf g = ∅ then some (.error .islandsOrCircular)
  else resolveLoopF g.deps fuel (rootsOf g) (othersOf g) 1 [(0, rootsOf g)]

/-- One pass of the resolution loop as a state transformer on
(frontier, pending): the new frontier is the set of pending identifiers
with a recorded dependency in the old frontier, the new pending set is
the rest (among those with a dependency entry). -/
def stepF (deps : Id → Option (Finset Id)) (st : Finset Id × Finset Id) :
    Finset Id × Finset Id :=
  (st.2.filter (hasDepIn deps st.1),
   st.2.filter fun id => (deps id).isSome ∧ ¬ hasDepIn deps st.1 id)

/-- The (frontier, pending) state just before the pass that would build
level `n + 1`, starting from the initial partition (roots, others). -/
def states (g : DepRes Id) (n : Nat) : Finset Id × Finset Id :=
  (stepF g.deps)^[n] (rootsOf g, othersOf g)

/-- The level assigned to an identifier by a resolved result: the level
number of the first recorded level set containing it. -/
def levelOf (res : List (Nat × Finset Id)) (id : Id) : Option Nat :=
  (res.find? fun e => decide (id ∈ e.2)).map Prod.fst

/-- Model of `ResolvedDeps::sorted_by_level` (lib.rs lines 129-137): collect the
(level, set) entries of the level map (the argument `es`, in whatever
order the map yields them, each level's `DashSet` iterated into a list
in whatever order it yields its elements), sort the entries by level
number (`Vec::sort_by_key`, modelled by `List.insertionSort` on the
level number) and flatten the per-level lists (`flat_map`). -/
def sortedByLevel (es : List (Nat × List Id)) : List Id :=
  (List.insertionSort (fun a b => a.1 ≤ b.1) es).flatMap Prod.snd

/-- Predicate: `l` is a possible iteration outcome of the `DashSet` holding exactly
the elements of `s`: duplicate-free and with the same elements. -/
def SetList (s : Finset Id) (l : List Id) : Prop :=
  l.Nodup ∧ l.toFinset = s

/-- Predicate: `es` is a possible outcome of collecting the level map whose entries
are `res` (lib.rs line 130): some pointwise enumeration `es₀` of the
recorded entries, yielded in an unspecified order (any permutation). -/
def CollectedFrom (res : List (Nat × Finset Id)) (es : List (Nat × List Id)) : Prop :=
  ∃ es₀, List.Forall₂ (fun p e => p.1 = e.1 ∧ SetList p.2 e.2) res es₀ ∧ es.Perm es₀

/-- Model of `ResolvedDeps::iter_level` (lib.rs lines 143-148): it maps directly over
the `DashMap`'s entries without sorting; the map yields its entries in
an unspecified internal order, so a possible iteration outcome is any
permutation `l` of the recorded entries `res`. -/
def iterLevelRun (res l : List (Nat × Finset Id)) : Prop :=
  l.Perm res

instance iterLevelRun.instDecidable (res l : List (Nat × Finset Id)) :
    Decidable (iterLevelRun res l) :=
  inferInstanceAs (Decidable (l.Perm res))

/-- Union of the identifier sets of a list of levels. -/
def unionSets (l : List (Nat × Finset Id)) : Finset Id :=
  l.foldr (fun e acc => e.2 ∪ acc) ∅

/-- The identifier sets of the listed levels are pairwise disjoint. -/
def PairwiseDisjointSets (l : List (Nat × Finset Id)) : Prop :=
  l.Pairwise fun a b => Disjoint a.2 b.2

/-- Every identifier of the first listed level has a recorded dependency
in `last`, and so on along the list, each level against its
predecessor. -/
def ChainFrom (deps : Id → Option (Finset Id)) : Finset Id → List (Nat × Finset Id) → Prop
  | _, [] => True
  | last, e :: rest =>
    (∀ id ∈ e.2, ∃ ds, deps id = some ds ∧ ∃ d ∈ ds, d ∈ last) ∧ ChainFrom deps e.2 rest

/-- Concrete graph: the two-identifier chain 0 ← 1. -/
def gChain2 : DepRes Nat :=
  ⟨{0, 1}, fun x => if x = 1 then some {0} else none⟩

/-- Resolved levels of `gChain2`. -/
def gChain2Res : List (Nat × Finset Nat) := [(0, {0}), (1, {1})]

/-- Concrete graph with dependencies spread over non-adjacent levels:
0 is a root, 1 depends on 0, 2 on 1, 3 on 2, and 4 on both 1 and 3. -/
def gMulti : DepRes Nat :=
  ⟨{0, 1, 2, 3, 4}, fun x =>
    if x = 1 then some {0} else if x = 2 then some {1}
    else if x = 3 then some {2} else if x = 4 then some {1, 3} else none⟩

/-- Resolved levels of `gMulti`: identifier 4 is admitted at level 2 via
its level-1 dependency even though its other dependency 3 only settles
at level 3. -/
def gMultiRes : List (Nat × Finset Nat) := [(0, {0}), (1, {1}), (2, {2, 4}), (3, {3})]

/-- Concrete graph: the two-cycle 0 ⇄ 1. -/
def gCycle : DepRes Nat :=
  ⟨{0, 1}, fun x => if x = 0 then some {1} else if x = 1 then some {0} else none⟩

/-- Predicate: the item's contribution is already contained in `g`: its identifier is
known, and each of its listed dependencies is recorded in the entry keyed
by its identifier. -/
def Absorbed (it : DepItem Id) (g : DepRes Id) : Prop :=
  it.id ∈ g.ids ∧ ∀ d ∈ it.deps, ∃ s, g.deps it.id = some s ∧ d ∈ s

/-- Pointwise growth of accumulator states: identifiers are only added,
and dependency entries only grow. -/
def GraphLE (g g' : DepRes Id) : Prop :=
  g.ids ⊆ g'.ids ∧ ∀ i s, g.deps i = some s → ∃ s', g'.deps i = some s' ∧ s ⊆ s'

/-- Concrete item: identifier 5 with dependency list [1]. -/
def itA : DepItem Nat := ⟨5, [1]⟩

/-- Concrete item: identifier 5 with dependency list [2]. -/
def itB : DepItem Nat := ⟨5, [2]⟩

/-- Concrete item batch: a root 0 and an item 1 depending on it. -/
def itemsAB : List (DepItem Nat) := [⟨0, []⟩, ⟨1, [0]⟩]

instance {β : Type} : IsTotal (Nat × β) fun a b => a.1 ≤ b.1 :=
  ⟨fun a b => Nat.le_total a.1 b.1⟩

instance {β : Type} : IsTrans (Nat × β) fun a b => a.1 ≤ b.1 :=
  ⟨fun a b c => Nat.le_trans⟩

deriving instance DecidableEq for Except

/-! ## Theorems -/

/-- The pending set strictly shrinks whenever a pass admits at least one
identifier into the next level. -/
theorem newOther_card_lt (deps : Id → Option (Finset Id)) (last other : Finset Id)
    (h : other.filter (hasDepIn deps last) ≠ ∅) :
    (other.filter fun id => (deps id).isSome ∧ ¬ hasDepIn deps last id).card < other.card := by
  obtain ⟨x, hx⟩ := Finset.nonempty_iff_ne_empty.mpr h
  have hxo : x ∈ other := (Finset.mem_filter.mp hx).1
  have hxd : hasDepIn deps last x := (Finset.mem_filter.mp hx).2
  refine Finset.card_lt_card ?_
  rw [Finset.ssubset_iff_subset_ne]
  refine ⟨Finset.filter_subset _ _, fun he => ?_⟩
  have hxn : x ∈ other.filter fun id => (deps id).isSome ∧ ¬ hasDepIn deps last id := by
    rw [he]; exact hxo
  exact (Finset.mem_filter.mp hxn).2.2 hxd

/-- With more fuel than pending identifiers, the fueled loop computes the
value of the resolution loop. -/
theorem resolveLoopF_eq (deps : Id → Option (Finset Id)) :
    ∀ (fuel : Nat) (last other : Finset Id) (lv : Nat) (lvs : List (Nat × Finset Id)),
      other.card < fuel →
      resolveLoopF deps fuel last other lv lvs = some (resolveLoop deps last other lv lvs) := by
  intro fuel
  induction fuel with
  | zero => intro last other lv lvs h; exact absurd h (Nat.not_lt_zero _)
  | succ fuel ih =>
    intro last other lv lvs h
    rw [resolveLoop.eq_def]
    simp only [resolveLoopF]
    split_ifs with h1 h2 h3
    · rfl
    · rfl
    · rfl
    · exact ih _ _ _ _
        (lt_of_lt_of_le (newOther_card_lt deps last other h2) (Nat.lt_succ_iff.mp h))

/-- With more fuel than pending identifiers, `resolveF` computes
`DepRes.resolve`. -/
theorem resolveF_eq (g : DepRes Id) (fuel : Nat) (h : (othersOf g).card < fuel) :
    resolveF g fuel = some g.resolve := by
  rw [resolveF, DepRes.resolve]
  split_ifs with h1 h2
  · rfl
  · rfl
  · exact resolveLoopF_eq _ _ _ _ _ _ h

/-- Evaluation principle: a fueled run with fuel above the identifier
count determines the value of `DepRes.resolve`. -/
theorem resolve_eq_of_resolveF (g : DepRes Id) (fuel : Nat)
    (r : Except DepResolveError (List (Nat × Finset Id)))
    (h1 : g.ids.card < fuel) (h2 : resolveF g fuel = some r) : g.resolve = r := by
  have hle : (othersOf g).card ≤ g.ids.card := Finset.card_le_card (Finset.filter_subset _ _)
  have h3 := resolveF_eq g fuel (lt_of_le_of_lt hle h1)
  rw [h2] at h3
  exact (Option.some.inj h3).symm

/-- The chain 0 ← 1 resolves into two singleton levels. -/
theorem gChain2_resolve : gChain2.resolve = .ok gChain2Res :=
  resolve_eq_of_resolveF _ 3 _ (by decide) (by decide)

/-- The spread graph resolves with identifier 4 at level 2 although its
dependency 3 lands at level 3. -/
theorem gMulti_resolve : gMulti.resolve = .ok gMultiRes :=
  resolve_eq_of_resolveF _ 7 _ (by decide) (by decide)

/-- The two-cycle has no roots and fails to resolve. -/
theorem gCycle_resolve : gCycle.resolve = .error .islandsOrCircular := by decide

/-- When every pending identifier has a dependency entry, the fueled loop
never reports an internal data error. -/
theorem resolveLoopF_ne_internal (deps : Id → Option (Finset Id)) :
    ∀ (fuel : Nat) (last other : Finset Id) (lv : Nat) (lvs : List (Nat × Finset Id)),
      (∀ id ∈ other, (deps id).isSome) →
      resolveLoopF deps fuel last other lv lvs ≠ some (.error .internalDataError) := by
  intro fuel
  induction fuel with
  | zero => intro last other lv lvs hwf; simp [resolveLoopF]
  | succ fuel ih =>
    intro last other lv lvs hwf
    have h1 : ¬ ∃ id ∈ other, deps id = none := by
      rintro ⟨id, hid, hnone⟩
      have h2 := hwf id hid
      rw [hnone] at h2
      simp at h2
    simp only [resolveLoopF, if_neg h1]
    split_ifs with h2 h3
    · simp
    · simp
    · exact ih _ _ _ _ fun id hid => (Finset.mem_filter.mp hid).2.1

/-- Theorem: `DepRes.resolve` never returns `InternalDataError`: every pending
identifier carries a dependency entry throughout the run. -/
theorem resolve_ne_internal (g : DepRes Id) :
    g.resolve ≠ .error .internalDataError := by
  intro hcontra
  rw [DepRes.resolve] at hcontra
  split_ifs at hcontra with h1 h2
  · exact DepResolveError.noConfusion (Except.error.inj hcontra)
  · have hwf : ∀ id ∈ othersOf g, (g.deps id).isSome :=
      fun id hid => (Finset.mem_filter.mp hid).2
    have h3 := resolveLoopF_eq g.deps ((othersOf g).card + 1) (rootsOf g) (othersOf g) 1
      [(0, rootsOf g)] (Nat.lt_succ_self _)
    rw [hcontra] at h3
    exact resolveLoopF_ne_internal g.deps _ _ _ _ _ hwf h3

/-- Unfolding lemma: the union of a non-empty list of levels. -/
theorem unionSets_cons (e : Nat × Finset Id) (l : List (Nat × Finset Id)) :
    unionSets (e :: l) = e.2 ∪ unionSets l := rfl

/-- Membership in the union of the listed level sets. -/
theorem mem_unionSets {l : List (Nat × Finset Id)} {x : Id} :
    x ∈ unionSets l ↔ ∃ e ∈ l, x ∈ e.2 := by
  induction l with
  | nil => simp [unionSets]
  | cons e rest ih =>
    rw [unionSets_cons]
    simp only [Finset.mem_union, ih, List.mem_cons]
    constructor
    · rintro (hx | ⟨e', he', hx⟩)
      · exact ⟨e, Or.inl rfl, hx⟩
      · exact ⟨e', Or.inr he', hx⟩
    · rintro ⟨e', (rfl | he'), hx⟩
      · exact Or.inl hx
      · exact Or.inr ⟨e', he', hx⟩

/-- A listed level's set is contained in the union of all listed sets. -/
theorem subset_unionSets {l : List (Nat × Finset Id)} {e : Nat × Finset Id} (he : e ∈ l) :
    e.2 ⊆ unionSets l := fun x hx => mem_unionSets.mpr ⟨e, he, hx⟩

/-- Specification of a successful run of the (fueled) resolution loop:
the result extends the already recorded levels `lvs` by a tail whose
level numbers continue contiguously from `lv`, whose sets are pairwise
disjoint and exactly exhaust the pending set `other`, and whose every
member has a recorded dependency in the preceding level (starting from
`last`). -/
theorem resolveLoopF_ok (deps : Id → Option (Finset Id)) :
    ∀ (fuel : Nat) (last other : Finset Id) (lv : Nat) (lvs res : List (Nat × Finset Id)),
      resolveLoopF deps fuel last other lv lvs = some (.ok res) →
      ∃ tail, res = lvs ++ tail ∧
        tail.map Prod.fst = List.range' lv tail.length ∧
        unionSets tail = other ∧
        PairwiseDisjointSets tail ∧
        ChainFrom deps last tail := by
  intro fuel
  induction fuel with
  | zero => intro last other lv lvs res h; simp [resolveLoopF] at h
  | succ fuel ih =>
    intro last other lv lvs res h
    simp only [resolveLoopF] at h
    split_ifs at h with h1 h2 h3
    · exact absurd (Option.some.inj h) (fun hh => Except.noConfusion hh)
    · have hres : res = lvs := (Except.ok.inj (Option.some.inj h)).symm
      refine ⟨[], by simp [hres], rfl, ?_, List.Pairwise.nil, trivial⟩
      rw [h3]; rfl
    · exact absurd (Option.some.inj h) (fun hh => Except.noConfusion hh)
    · obtain ⟨tail, hres, hkeys, hunion, hdisj, hchain⟩ := ih _ _ _ _ _ h
      have hwf : ∀ id ∈ other, (deps id).isSome := by
        intro id hid
        rcases hq : deps id with _ | ds
        · exact absurd ⟨id, hid, hq⟩ h1
        · rfl
      refine ⟨(lv, other.filter (hasDepIn deps last)) :: tail, ?_, ?_, ?_, ?_, ?_⟩
      · rw [hres, List.append_assoc]; rfl
      · simp only [List.map_cons, List.length_cons, List.range'_succ, hkeys]
      · rw [unionSets_cons, hunion]
        ext x
        simp only [Finset.mem_union, Finset.mem_filter]
        constructor
        · rintro (⟨hx, _⟩ | ⟨hx, _⟩) <;> exact hx
        · intro hx
          by_cases hd : hasDepIn deps last x
          · exact Or.inl ⟨hx, hd⟩
          · exact Or.inr ⟨hx, hwf x hx, hd⟩
      · refine List.Pairwise.cons ?_ hdisj
        intro e he
        have hsub : e.2 ⊆ unionSets tail := subset_unionSets he
        rw [hunion] at hsub
        refine Finset.disjoint_left.mpr fun x hx1 hx2 => ?_
        have hx3 := hsub hx2
        exact (Finset.mem_filter.mp hx3).2.2 (Finset.mem_filter.mp hx1).2
      · refine ⟨?_, hchain⟩
        intro id hid
        exact (Finset.mem_filter.mp hid).2

/-- Case analysis for a successful `DepRes.resolve`: either the graph was
empty and the result has no levels, or the result is the roots at level 0
followed by contiguously numbered, pairwise disjoint levels that exhaust
the non-root identifiers, each member having a recorded dependency in the
preceding level. -/
theorem resolve_ok_cases (g : DepRes Id) (res : List (Nat × Finset Id))
    (h : g.resolve = .ok res) :
    (g.ids = ∅ ∧ res = []) ∨
      ∃ tail, res = (0, rootsOf g) :: tail ∧
        tail.map Prod.fst = List.range' 1 tail.length ∧
        unionSets tail = othersOf g ∧
        PairwiseDisjointSets tail ∧
        ChainFrom g.deps (rootsOf g) tail := by
  rw [DepRes.resolve] at h
  split_ifs at h with h1 h2
  · exact .inl ⟨h1, (Except.ok.inj h).symm⟩
  · right
    have hF := resolveLoopF_eq g.deps ((othersOf g).card + 1) (rootsOf g) (othersOf g) 1
      [(0, rootsOf g)] (Nat.lt_succ_self _)
    rw [h] at hF
    obtain ⟨tail, hres, hkeys, hunion, hdisj, hchain⟩ := resolveLoopF_ok g.deps _ _ _ _ _ _ hF
    exact ⟨tail, hres, hkeys, hunion, hdisj, hchain⟩

/-- The level numbers of a successful resolution are exactly
0, 1, …, number of levels − 1, in order. -/
theorem resolve_ok_keys (g : DepRes Id) (res : List (Nat × Finset Id))
    (h : g.resolve = .ok res) :
    res.map Prod.fst = List.range res.length := by
  rcases resolve_ok_cases g res h with ⟨_, rfl⟩ | ⟨tail, rfl, hkeys, _, _, _⟩
  · rfl
  · simp [List.range_eq_range', List.range'_succ, hkeys]

/-- Roots (no dependency entry) and others (with an entry) never meet. -/
theorem roots_disjoint_others (g : DepRes Id) : Disjoint (rootsOf g) (othersOf g) := by
  refine Finset.disjoint_left.mpr fun x hx1 hx2 => ?_
  have h1 := (Finset.mem_filter.mp hx1).2
  have h2 := (Finset.mem_filter.mp hx2).2
  rw [Option.isNone_iff_eq_none] at h1
  rw [h1] at h2
  simp at h2

/-- The level sets of a successful resolution are pairwise disjoint. -/
theorem resolve_ok_disjoint (g : DepRes Id) (res : List (Nat × Finset Id))
    (h : g.resolve = .ok res) : PairwiseDisjointSets res := by
  rcases resolve_ok_cases g res h with ⟨_, rfl⟩ | ⟨tail, rfl, _, hunion, hdisj, _⟩
  · exact List.Pairwise.nil
  · refine List.Pairwise.cons ?_ hdisj
    intro e he
    have hsub : e.2 ⊆ othersOf g := hunion ▸ subset_unionSets he
    exact Finset.disjoint_of_subset_right hsub (roots_disjoint_others g)

/-- Every level set of a successful resolution contains only ingested
identifiers. -/
theorem resolve_ok_subset (g : DepRes Id) (res : List (Nat × Finset Id))
    (h : g.resolve = .ok res) : ∀ e ∈ res, e.2 ⊆ g.ids := by
  rcases resolve_ok_cases g res h with ⟨_, rfl⟩ | ⟨tail, rfl, _, hunion, _, _⟩
  · intro e he; cases he
  · intro e he
    rcases List.mem_cons.mp he with rfl | he'
    · exact Finset.filter_subset _ _
    · intro x hx
      have hxo : x ∈ othersOf g := hunion ▸ subset_unionSets he' hx
      exact Finset.mem_of_mem_filter x hxo

/-- Every ingested identifier lies in some level of a successful
resolution. -/
theorem resolve_ok_cover (g : DepRes Id) (res : List (Nat × Finset Id))
    (h : g.resolve = .ok res) : ∀ id ∈ g.ids, ∃ e ∈ res, id ∈ e.2 := by
  rcases resolve_ok_cases g res h with ⟨hids, rfl⟩ | ⟨tail, rfl, _, hunion, _, _⟩
  · intro id hid; rw [hids] at hid; exact absurd hid (Finset.not_mem_empty id)
  · intro id hid
    rcases hq : g.deps id with _ | ds
    · exact ⟨(0, rootsOf g), List.mem_cons_self _ _,
        Finset.mem_filter.mpr ⟨hid, by rw [hq]; rfl⟩⟩
    · have hxo : id ∈ othersOf g := Finset.mem_filter.mpr ⟨hid, by rw [hq]; rfl⟩
      rw [← hunion] at hxo
      obtain ⟨e, he, hide⟩ := mem_unionSets.mp hxo
      exact ⟨e, List.mem_cons_of_mem _ he, hide⟩

/-- In a list of (level, value) pairs whose keys are 0, 1, …, n − 1 in
order, membership of a pair coincides with lookup at its level. -/
theorem mem_iff_getElem?_of_keys {β : Type} {l : List (Nat × β)}
    (hkeys : l.map Prod.fst = List.range l.length) {L : Nat} {s : β} :
    (L, s) ∈ l ↔ l[L]? = some (L, s) := by
  constructor
  · intro hmem
    obtain ⟨i, hi, hgi⟩ := List.getElem_of_mem hmem
    have h1 : (l.map Prod.fst)[i]? = some L := by
      rw [List.getElem?_map, List.getElem?_eq_getElem hi, hgi]
      rfl
    rw [hkeys, List.getElem?_range (by simpa using hi)] at h1
    have h2 : i = L := Option.some.inj h1
    subst h2
    rw [List.getElem?_eq_getElem hi, hgi]
  · exact List.getElem?_mem

/-- The first listed level of a chain takes its dependencies from
`last`. -/
theorem chainFrom_zero (deps : Id → Option (Finset Id)) {last : Finset Id}
    {l : List (Nat × Finset Id)} (hc : ChainFrom deps last l) {e : Nat × Finset Id}
    (h : l[0]? = some e) :
    ∀ id ∈ e.2, ∃ ds, deps id = some ds ∧ ∃ d ∈ ds, d ∈ last := by
  cases l with
  | nil => simp at h
  | cons e' rest =>
    have he : e' = e := by simpa using h
    subst he
    exact hc.1

/-- Each later level of a chain takes its dependencies from the level
listed immediately before it. -/
theorem chainFrom_succ (deps : Id → Option (Finset Id)) :
    ∀ {last : Finset Id} {l : List (Nat × Finset Id)}, ChainFrom deps last l →
      ∀ {i : Nat} {e1 e2 : Nat × Finset Id}, l[i]? = some e1 → l[i + 1]? = some e2 →
        ∀ id ∈ e2.2, ∃ ds, deps id = some ds ∧ ∃ d ∈ ds, d ∈ e1.2 := by
  intro last l
  induction l generalizing last with
  | nil => intro hc i e1 e2 h1 h2; simp at h1
  | cons e' rest ih =>
    intro hc i e1 e2 h1 h2
    cases i with
    | zero =>
      have he1 : e' = e1 := by simpa using h1
      have h2' : rest[0]? = some e2 := by simpa using h2
      subst he1
      exact chainFrom_zero deps hc.2 h2'
    | succ j =>
      have h1' : rest[j]? = some e1 := by simpa using h1
      have h2' : rest[j + 1]? = some e2 := by simpa using h2
      exact ih hc.2 h1' h2'

/-- With pairwise disjoint level sets, `levelOf` assigns to a member of a
listed level exactly that level's number. -/
theorem levelOf_eq {res : List (Nat × Finset Id)} (hdisj : PairwiseDisjointSets res) :
    ∀ {L : Nat} {s : Finset Id}, (L, s) ∈ res → ∀ {d : Id}, d ∈ s → levelOf res d = some L := by
  induction res with
  | nil => intro L s hmem; cases hmem
  | cons e rest ih =>
    intro L s hmem d hd
    rw [levelOf]
    by_cases hde : d ∈ e.2
    · rw [List.find?_cons_of_pos _ (by simpa using hde)]
      rcases List.mem_cons.mp hmem with rfl | hmem'
      · rfl
      · exact absurd hde
          (Finset.disjoint_right.mp (List.rel_of_pairwise_cons hdisj hmem') hd)
    · rw [List.find?_cons_of_neg _ (by simpa using hde)]
      rcases List.mem_cons.mp hmem with rfl | hmem'
      · exact absurd hd hde
      · exact ih hdisj.of_cons hmem' hd

/-- With pairwise disjoint level sets, a member of a listed level lies in
exactly one of the listed sets. -/
theorem length_filter_eq_one {res : List (Nat × Finset Id)} (hdisj : PairwiseDisjointSets res) :
    ∀ {e : Nat × Finset Id}, e ∈ res → ∀ {id : Id}, id ∈ e.2 →
      (res.filter fun e' => decide (id ∈ e'.2)).length = 1 := by
  induction res with
  | nil => intro e he; cases he
  | cons e0 rest ih =>
    intro e he id hid
    rcases List.mem_cons.mp he with rfl | he'
    · rw [List.filter_cons_of_pos (by simpa using hid)]
      have hrest : List.filter (fun e' => decide (id ∈ e'.2)) rest = [] := by
        rw [List.filter_eq_nil_iff]
        intro e' he' hcontra
        exact Finset.disjoint_left.mp (List.rel_of_pairwise_cons hdisj he') hid
          (by simpa using hcontra)
      rw [hrest]
      rfl
    · have hid0 : id ∉ e0.2 := fun hcontra =>
        Finset.disjoint_left.mp (List.rel_of_pairwise_cons hdisj he') hcontra hid
      rw [List.filter_cons_of_neg (by simpa using hid0)]
      exact ih hdisj.of_cons he' hid

/-- An identifier lying in none of the listed level sets is counted by no
level. -/
theorem length_filter_eq_zero {res : List (Nat × Finset Id)} {id : Id}
    (h : ∀ e ∈ res, id ∉ e.2) :
    (res.filter fun e' => decide (id ∈ e'.2)).length = 0 := by
  rw [List.length_eq_zero, List.filter_eq_nil_iff]
  intro e he
  simpa using h e he

/-- The set recorded at level 0 of a successful resolution is exactly the
set of roots. -/
theorem resolve_ok_zero (g : DepRes Id) (res : List (Nat × Finset Id))
    (h : g.resolve = .ok res) {s : Finset Id} (hmem : (0, s) ∈ res) :
    s = rootsOf g := by
  rcases resolve_ok_cases g res h with ⟨_, rfl⟩ | ⟨tail, rfl, hkeys, _, _, _⟩
  · cases hmem
  · have hkeysres := resolve_ok_keys g _ h
    have h0 := (mem_iff_getElem?_of_keys hkeysres).mp hmem
    rw [List.getElem?_cons_zero] at h0
    exact (congrArg Prod.snd (Option.some.inj h0)).symm

/-- At any positive level of a successful resolution, every member has a
recorded dependency lying in the level set recorded one level below. -/
theorem resolve_ok_chain (g : DepRes Id) (res : List (Nat × Finset Id))
    (h : g.resolve = .ok res) {L : Nat} {s : Finset Id} (hmem : (L, s) ∈ res)
    (hL : 0 < L) {id : Id} (hid : id ∈ s) :
    ∃ ds, g.deps id = some ds ∧ ∃ d ∈ ds, ∃ s', (L - 1, s') ∈ res ∧ d ∈ s' := by
  rcases hcases : resolve_ok_cases g res h with ⟨_, hnil⟩ | ⟨tail, hres, hkeys, hunion, hdisj, hchain⟩
  · rw [hnil] at hmem; cases hmem
  · have hkeysres := resolve_ok_keys g res h
    have hmem' := (mem_iff_getElem?_of_keys hkeysres).mp hmem
    obtain ⟨j, rfl⟩ : ∃ j, L = j + 1 := ⟨L - 1, (Nat.succ_pred_eq_of_pos hL).symm⟩
    have htail : tail[j]? = some (j + 1, s) := by
      rw [hres] at hmem'
      simpa using hmem'
    cases j with
    | zero =>
      obtain ⟨ds, hds, d, hd, hdlast⟩ := chainFrom_zero g.deps hchain htail id hid
      refine ⟨ds, hds, d, hd, rootsOf g, ?_, hdlast⟩
      rw [hres]
      exact List.mem_cons_self _ _
    | succ k =>
      have hk1 : k + 1 < tail.length := by
        obtain ⟨hlt, _⟩ := List.getElem?_eq_some_iff.mp htail
        exact hlt
      have hk : k < tail.length := Nat.lt_of_succ_lt hk1
      have h1 : tail[k]? = some tail[k] := List.getElem?_eq_getElem hk
      have hkey : tail[k].1 = k + 1 := by
        have h2 : (tail.map Prod.fst)[k]? = some (tail[k].1) := by
          rw [List.getElem?_map, h1]
          rfl
        rw [hkeys, List.getElem?_range' _ _ (by simpa using hk)] at h2
        have h3 := Option.some.inj h2
        omega
      obtain ⟨ds, hds, d, hd, hdprev⟩ := chainFrom_succ g.deps hchain h1 htail id hid
      refine ⟨ds, hds, d, hd, tail[k].2, ?_, hdprev⟩
      have hpair : (k + 1 + 1 - 1, tail[k].2) = tail[k] := by
        have h4 : k + 1 + 1 - 1 = tail[k].1 := by omega
        rw [h4]
      rw [hpair, hres]
      exact List.mem_cons_of_mem _ (List.getElem_mem hk)

/-- C2 (claim): for every graph that resolve() returns successfully,
every identifier assigned to a level L with L > 0 has at least one
recorded dependency that is a member of level L − 1, and every
identifier in level 0 has no entry in the dependency mapping. -/
theorem c2_theorem (g : DepRes Id) (res : List (Nat × Finset Id)) (h : g.resolve = .ok res) :
    ∀ L s, (L, s) ∈ res → ∀ id ∈ s,
      (L = 0 → g.deps id = none) ∧
      (0 < L → ∃ ds, g.deps id = some ds ∧ ∃ d ∈ ds, ∃ s', (L - 1, s') ∈ res ∧ d ∈ s') := by
  intro L s hmem id hid
  constructor
  · rintro rfl
    have hs := resolve_ok_zero g res h hmem
    rw [hs] at hid
    exact Option.isNone_iff_eq_none.mp (Finset.mem_filter.mp hid).2
  · intro hL
    exact resolve_ok_chain g res h hmem hL hid

/-- Witness for C2 at the concrete chain 0 ← 1. -/
theorem c2_witness :
    gChain2.resolve = .ok gChain2Res ∧
    (∀ L s, (L, s) ∈ gChain2Res → ∀ id ∈ s,
      (L = 0 → gChain2.deps id = none) ∧
      (0 < L → ∃ ds, gChain2.deps id = some ds ∧
        ∃ d ∈ ds, ∃ s', (L - 1, s') ∈ gChain2Res ∧ d ∈ s')) :=
  ⟨gChain2_resolve, c2_theorem gChain2 gChain2Res gChain2_resolve⟩

/-- C4 (claim): for every graph that resolve() returns successfully, the
level numbers are contiguous starting at 0, each ingested identifier
appears in exactly one level, and identifiers never ingested appear in no
level. -/
theorem c4_theorem (g : DepRes Id) (res : List (Nat × Finset Id)) (h : g.resolve = .ok res) :
    res.map Prod.fst = List.range res.length ∧
    (∀ id ∈ g.ids, (res.filter fun e => decide (id ∈ e.2)).length = 1) ∧
    (∀ id, id ∉ g.ids → (res.filter fun e => decide (id ∈ e.2)).length = 0) := by
  refine ⟨resolve_ok_keys g res h, ?_, ?_⟩
  · intro id hid
    obtain ⟨e, he, hide⟩ := resolve_ok_cover g res h id hid
    exact length_filter_eq_one (resolve_ok_disjoint g res h) he hide
  · intro id hid
    refine length_filter_eq_zero fun e he hcontra => ?_
    exact hid (resolve_ok_subset g res h e he hcontra)

/-- Witness for C4 at the concrete spread graph. -/
theorem c4_witness :
    gMulti.resolve = .ok gMultiRes ∧
    (gMultiRes.map Prod.fst = List.range gMultiRes.length ∧
      (∀ id ∈ gMulti.ids, (gMultiRes.filter fun e => decide (id ∈ e.2)).length = 1) ∧
      (∀ id, id ∉ gMulti.ids → (gMultiRes.filter fun e => decide (id ∈ e.2)).length = 0)) :=
  ⟨gMulti_resolve, c4_theorem gMulti gMultiRes gMulti_resolve⟩

/-- C1, amended: for every graph that resolve() returns successfully,
identifiers with no recorded dependencies occupy level 0, and every
identifier at a positive level L has at least one recorded dependency
assigned level L − 1, a strictly lower level.  (The original claim — that
the level of every assigned dependency is strictly lower — fails; see the
counterexample.) -/
theorem c1_theorem (g : DepRes Id) (res : List (Nat × Finset Id)) (h : g.resolve = .ok res) :
    ∀ L s, (L, s) ∈ res → ∀ id ∈ s,
      (g.deps id = none → L = 0) ∧
      (0 < L → ∃ ds, g.deps id = some ds ∧
        ∃ d ∈ ds, levelOf res d = some (L - 1) ∧ L - 1 < L) := by
  intro L s hmem id hid
  constructor
  · intro hnone
    by_contra hL0
    obtain ⟨ds, hds, _⟩ :=
      resolve_ok_chain g res h hmem (Nat.pos_of_ne_zero hL0) hid
    rw [hnone] at hds
    exact Option.noConfusion hds
  · intro hL
    obtain ⟨ds, hds, d, hd, s', hs'mem, hds'⟩ := resolve_ok_chain g res h hmem hL hid
    exact ⟨ds, hds, d, hd, levelOf_eq (resolve_ok_disjoint g res h) hs'mem hds',
      Nat.sub_lt hL Nat.one_pos⟩

/-- Witness for the amended C1 at the concrete spread graph. -/
theorem c1_witness :
    gMulti.resolve = .ok gMultiRes ∧
    (∀ L s, (L, s) ∈ gMultiRes → ∀ id ∈ s,
      (gMulti.deps id = none → L = 0) ∧
      (0 < L → ∃ ds, gMulti.deps id = some ds ∧
        ∃ d ∈ ds, levelOf gMultiRes d = some (L - 1) ∧ L - 1 < L)) :=
  ⟨gMulti_resolve, c1_theorem gMulti gMultiRes gMulti_resolve⟩

/-- C1 fails as stated: in the spread graph, identifier 4 is assigned
level 2 while its recorded dependency 3 is assigned level 3, which is not
strictly lower. -/
theorem c1_counterexample :
    gMulti.resolve = .ok gMultiRes ∧
    (2, ({2, 4} : Finset Nat)) ∈ gMultiRes ∧ 4 ∈ ({2, 4} : Finset Nat) ∧
    gMulti.deps 4 = some {1, 3} ∧ 3 ∈ ({1, 3} : Finset Nat) ∧
    levelOf gMultiRes 3 = some 3 ∧ ¬ ((3 : Nat) < 2) :=
  ⟨gMulti_resolve, by decide, by decide, by decide, by decide, by decide, by decide⟩

/-- C5 (claim): under the sequential/exclusive embedding of resolution,
every identifier in the `others` partition has a dependency entry, and
resolve() never returns `InternalDataError`: its outcome is a successful
leveling or `IslandsOrCircular`. -/
theorem c5_theorem (g : DepRes Id) :
    (∀ id ∈ othersOf g, (g.deps id).isSome) ∧
    ((∃ res, g.resolve = .ok res) ∨ g.resolve = .error .islandsOrCircular) := by
  constructor
  · exact fun id hid => (Finset.mem_filter.mp hid).2
  · cases hr : g.resolve with
    | ok res => exact .inl ⟨res, rfl⟩
    | error e =>
      cases e with
      | islandsOrCircular => exact .inr rfl
      | internalDataError => exact absurd hr (resolve_ne_internal g)

/-- Witness for C5 at the concrete chain 0 ← 1. -/
theorem c5_witness :
    (∀ id ∈ othersOf gChain2, (gChain2.deps id).isSome) ∧
    ((∃ res, gChain2.resolve = .ok res) ∨ gChain2.resolve = .error .islandsOrCircular) :=
  c5_theorem gChain2

/-- C9 (claim): resolving a graph with no items ever added succeeds with
zero levels, and the flattened sequence of a zero-level result is
empty. -/
theorem c9_theorem :
    (DepRes.new : DepRes Id).resolve = .ok [] ∧
    sortedByLevel ([] : List (Nat × List Id)) = [] := by
  constructor
  · rw [DepRes.resolve]
    simp [DepRes.new]
  · rfl

/-- Witness for C9 at identifier type `Nat`. -/
theorem c9_witness :
    (DepRes.new : DepRes Nat).resolve = .ok [] ∧
    sortedByLevel ([] : List (Nat × List Nat)) = [] :=
  c9_theorem

/-- C10 (claim): resolve() terminates on every finite graph — the loop
reaches its answer within (number of identifiers) + 1 passes, because
each pass that continues strictly shrinks the pending set. -/
theorem c10_theorem (g : DepRes Id) (fuel : Nat) (h : g.ids.card < fuel) :
    resolveF g fuel = some g.resolve ∧
    (∀ last other : Finset Id, other.filter (hasDepIn g.deps last) ≠ ∅ →
      (other.filter fun id => (g.deps id).isSome ∧ ¬ hasDepIn g.deps last id).card
        < other.card) := by
  constructor
  · exact resolveF_eq g fuel
      (lt_of_le_of_lt (Finset.card_le_card (Finset.filter_subset _ _)) h)
  · exact fun last other hne => newOther_card_lt g.deps last other hne

/-- Witness for C10 at the concrete spread graph with fuel 7. -/
theorem c10_witness :
    gMulti.ids.card < 7 ∧
    (resolveF gMulti 7 = some gMulti.resolve ∧
      (∀ last other : Finset Nat, other.filter (hasDepIn gMulti.deps last) ≠ ∅ →
        (other.filter fun id => (gMulti.deps id).isSome ∧ ¬ hasDepIn gMulti.deps last id).card
          < other.card)) :=
  ⟨by decide, c10_theorem gMulti 7 (by decide)⟩

/-- Once the pending set is empty it stays empty under resolution
passes. -/
theorem stepF_empty (deps : Id → Option (Finset Id)) :
    ∀ (n : Nat) (last : Finset Id), ((stepF deps)^[n] (last, ∅)).2 = ∅ := by
  intro n
  induction n with
  | zero => intro last; rfl
  | succ m ih =>
    intro last
    rw [Function.iterate_succ_apply]
    have h1 : stepF deps (last, (∅ : Finset Id)) = (∅, ∅) := by
      rw [stepF]
      simp [Finset.filter_empty]
    rw [h1]
    exact ih ∅

/-- The fueled loop reports `IslandsOrCircular` exactly when some later
pass faces a non-empty pending set none of whose members has a recorded
dependency in the current frontier. -/
theorem resolveLoopF_islands_iff (deps : Id → Option (Finset Id)) :
    ∀ (fuel : Nat) (last other : Finset Id) (lv : Nat) (lvs : List (Nat × Finset Id)),
      other.card < fuel →
      (∀ id ∈ other, (deps id).isSome) →
      (resolveLoopF deps fuel last other lv lvs = some (.error .islandsOrCircular) ↔
        ∃ n, ((stepF deps)^[n] (last, other)).2 ≠ ∅ ∧
          ((stepF deps)^[n] (last, other)).2.filter
            (hasDepIn deps ((stepF deps)^[n] (last, other)).1) = ∅) := by
  intro fuel
  induction fuel with
  | zero => intro last other lv lvs h hwf; exact absurd h (Nat.not_lt_zero _)
  | succ fuel ih =>
    intro last other lv lvs h hwf
    have h1 : ¬ ∃ id ∈ other, deps id = none := by
      rintro ⟨id, hid, hnone⟩
      have h2 := hwf id hid
      rw [hnone] at h2
      simp at h2
    simp only [resolveLoopF, if_neg h1]
    split_ifs with h2 h3
    · constructor
      · intro hcontra
        exact absurd (Option.some.inj hcontra) (fun hh => Except.noConfusion hh)
      · rintro ⟨n, hne, _⟩
        rw [h3] at hne
        exact (hne (stepF_empty deps n last)).elim
    · constructor
      · intro _
        exact ⟨0, h3, h2⟩
      · intro _
        rfl
    · have hlt : (other.filter fun id => (deps id).isSome ∧ ¬ hasDepIn deps last id).card
          < fuel :=
        lt_of_lt_of_le (newOther_card_lt deps last other h2) (Nat.lt_succ_iff.mp h)
      have hwf' : ∀ id ∈ (other.filter fun id => (deps id).isSome ∧ ¬ hasDepIn deps last id),
          (deps id).isSome := fun id hid => (Finset.mem_filter.mp hid).2.1
      rw [ih _ _ _ _ hlt hwf']
      have hstep : stepF deps (last, other) =
          (other.filter (hasDepIn deps last),
           other.filter fun id => (deps id).isSome ∧ ¬ hasDepIn deps last id) := rfl
      constructor
      · rintro ⟨n, hne, hfil⟩
        refine ⟨n + 1, ?_, ?_⟩
        · rw [Function.iterate_succ_apply, hstep]
          exact hne
        · rw [Function.iterate_succ_apply, hstep]
          exact hfil
      · rintro ⟨n, hne, hfil⟩
        cases n with
        | zero => exact absurd hfil h2
        | succ m =>
          rw [Function.iterate_succ_apply, hstep] at hne hfil
          exact ⟨m, hne, hfil⟩

/-- C3 (claim): resolve() returns `IslandsOrCircular` exactly when no
progress can be made — either the identifier set is non-empty but has no
roots, or some pass faces a non-empty pending set none of whose members
has a recorded dependency in the preceding level's set; otherwise (absent
an internal data error, which never occurs) a successful leveling is
returned. -/
theorem c3_theorem (g : DepRes Id) :
    (g.resolve = .error .islandsOrCircular ↔
      (g.ids.Nonempty ∧ rootsOf g = ∅) ∨
        ∃ n, (states g n).2.Nonempty ∧
          (states g n).2.filter (hasDepIn g.deps (states g n).1) = ∅) ∧
    (¬ ((g.ids.Nonempty ∧ rootsOf g = ∅) ∨
        ∃ n, (states g n).2.Nonempty ∧
          (states g n).2.filter (hasDepIn g.deps (states g n).1) = ∅) →
      ∃ res, g.resolve = .ok res) := by
  have hiff : g.resolve = .error .islandsOrCircular ↔
      (g.ids.Nonempty ∧ rootsOf g = ∅) ∨
        ∃ n, (states g n).2.Nonempty ∧
          (states g n).2.filter (hasDepIn g.deps (states g n).1) = ∅ := by
    rw [DepRes.resolve]
    split_ifs with h1 h2
    · constructor
      · intro hcontra
        exact hcontra.elim
      · rintro (⟨hne, _⟩ | ⟨n, hne, _⟩)
        · exact absurd h1 (Finset.nonempty_iff_ne_empty.mp hne)
        · have ho : othersOf g = ∅ := by
            rw [othersOf, h1]
            exact Finset.filter_empty _
          have hz : (states g n).2 = ∅ := by
            rw [states, ho]
            exact stepF_empty g.deps n (rootsOf g)
          rw [hz] at hne
          exact absurd hne (by simp)
    · constructor
      · intro _
        exact .inl ⟨Finset.nonempty_iff_ne_empty.mpr h1, h2⟩
      · intro _
        rfl
    · have hwf : ∀ id ∈ othersOf g, (g.deps id).isSome :=
        fun id hid => (Finset.mem_filter.mp hid).2
      have hfuel : (othersOf g).card < (othersOf g).card + 1 := Nat.lt_succ_self _
      have hF := resolveLoopF_eq g.deps ((othersOf g).card + 1) (rootsOf g) (othersOf g) 1
        [(0, rootsOf g)] hfuel
      have hI := resolveLoopF_islands_iff g.deps ((othersOf g).card + 1) (rootsOf g)
        (othersOf g) 1 [(0, rootsOf g)] hfuel hwf
      rw [hF] at hI
      constructor
      · intro hL
        right
        obtain ⟨n, hne, hfil⟩ := hI.mp (by rw [hL])
        exact ⟨n, Finset.nonempty_iff_ne_empty.mpr hne, hfil⟩
      · rintro (⟨_, hroots⟩ | ⟨n, hne, hfil⟩)
        · exact absurd hroots h2
        · have := hI.mpr ⟨n, Finset.nonempty_iff_ne_empty.mp hne, hfil⟩
          exact Option.some.inj this
  refine ⟨hiff, fun hnot => ?_⟩
  cases hr : g.resolve with
  | ok res => exact ⟨res, rfl⟩
  | error e =>
    cases e with
    | islandsOrCircular => exact absurd (hiff.mp hr) hnot
    | internalDataError => exact absurd hr (resolve_ne_internal g)

/-- Witness for C3: the two-cycle has a non-empty identifier set and no
roots, so resolve() fails with `IslandsOrCircular`. -/
theorem c3_witness : gCycle.resolve = .error .islandsOrCircular :=
  (c3_theorem gCycle).1.mpr (.inl ⟨by decide, by decide⟩)

/-- C6 fails as stated: iter_level() does not sort, and the level map may
yield its two entries for the resolved chain 0 ← 1 in descending order. -/
theorem c6_counterexample :
    gChain2.resolve = .ok gChain2Res ∧
    iterLevelRun gChain2Res [(1, ({1} : Finset Nat)), (0, {0})] ∧
    ¬ List.Sorted (fun a b => a.1 < b.1) [(1, ({1} : Finset Nat)), (0, {0})] :=
  ⟨gChain2_resolve, by decide, by decide⟩

/-- C6, amended: for every resolved result, every possible iteration of
iter_level() yields exactly one (level, set) pair per recorded level —
as many pairs as levels, with duplicate-free level numbers, the pairs
being exactly the recorded ones — in an unspecified order, and
re-iterating yields the same logical content (a permutation of the same
pairs).  (The original claim of ascending level order fails; see the
counterexample.) -/
theorem c6_theorem (g : DepRes Id) (res l1 l2 : List (Nat × Finset Id))
    (h : g.resolve = .ok res) (h1 : iterLevelRun res l1) (h2 : iterLevelRun res l2) :
    l1.length = res.length ∧
    (l1.map Prod.fst).Nodup ∧
    (∀ e, e ∈ l1 ↔ e ∈ res) ∧
    l1.Perm l2 := by
  refine ⟨h1.length_eq, ?_, fun e => h1.mem_iff, h1.trans h2.symm⟩
  have hkeys := resolve_ok_keys g res h
  have hperm : (l1.map Prod.fst).Perm (res.map Prod.fst) := h1.map _
  rw [hkeys] at hperm
  exact hperm.nodup_iff.mpr (List.nodup_range _)

/-- Witness for the amended C6 at the concrete chain 0 ← 1. -/
theorem c6_witness :
    (gChain2.resolve = .ok gChain2Res ∧
      iterLevelRun gChain2Res [(1, ({1} : Finset Nat)), (0, {0})] ∧
      iterLevelRun gChain2Res gChain2Res) ∧
    ([(1, ({1} : Finset Nat)), (0, {0})].length = gChain2Res.length ∧
      ([(1, ({1} : Finset Nat)), (0, {0})].map Prod.fst).Nodup ∧
      (∀ e, e ∈ [(1, ({1} : Finset Nat)), (0, {0})] ↔ e ∈ gChain2Res) ∧
      [(1, ({1} : Finset Nat)), (0, {0})].Perm gChain2Res) :=
  ⟨⟨gChain2_resolve, by decide, by decide⟩,
    c6_theorem gChain2 gChain2Res [(1, ({1} : Finset Nat)), (0, {0})] gChain2Res
      gChain2_resolve (by decide) (by decide)⟩

/-- Growth is reflexive. -/
theorem GraphLE.refl (g : DepRes Id) : GraphLE g g :=
  ⟨subset_rfl, fun i s h => ⟨s, h, subset_rfl⟩⟩

/-- Growth is transitive. -/
theorem GraphLE.trans {g1 g2 g3 : DepRes Id} (h12 : GraphLE g1 g2) (h23 : GraphLE g2 g3) :
    GraphLE g1 g3 := by
  refine ⟨h12.1.trans h23.1, fun i s h => ?_⟩
  obtain ⟨s', hs', hsub⟩ := h12.2 i s h
  obtain ⟨s'', hs'', hsub'⟩ := h23.2 i s' hs'
  exact ⟨s'', hs'', hsub.trans hsub'⟩

/-- A single dependency insertion only grows the accumulator. -/
theorem insertDep_le (g : DepRes Id) (i d : Id) : GraphLE g (g.insertDep i d) := by
  refine ⟨subset_rfl, fun j s hj => ?_⟩
  by_cases hji : j = i
  · subst hji
    refine ⟨insert d s, ?_, Finset.subset_insert _ _⟩
    rw [DepRes.insertDep]
    simp [hj]
  · refine ⟨s, ?_, subset_rfl⟩
    rw [DepRes.insertDep]
    simp only [if_neg hji]
    exact hj

/-- Folding dependency insertions only grows the accumulator. -/
theorem foldl_insertDep_le (i : Id) :
    ∀ (l : List Id) (g : DepRes Id),
      GraphLE g (l.foldl (fun acc d => acc.insertDep i d) g) := by
  intro l
  induction l with
  | nil => intro g; exact GraphLE.refl g
  | cons d rest ih =>
    intro g
    rw [List.foldl_cons]
    exact GraphLE.trans (insertDep_le g i d) (ih _)

/-- Inserting an identifier only grows the accumulator. -/
theorem insertId_le (g : DepRes Id) (i : Id) : GraphLE g (g.insertId i) :=
  ⟨Finset.subset_insert _ _, fun j s h => ⟨s, h, subset_rfl⟩⟩

/-- Ingesting one item only grows the accumulator. -/
theorem addItem_le (g : DepRes Id) (it : DepItem Id) : GraphLE g (g.addItem it) := by
  rw [DepRes.addItem]
  by_cases hd : it.deps.isEmpty
  · rw [if_pos hd]
    exact insertId_le g it.id
  · rw [if_neg hd]
    exact GraphLE.trans (foldl_insertDep_le it.id it.deps g) (insertId_le _ it.id)

/-- Ingesting a batch only grows the accumulator. -/
theorem graph_add_le : ∀ (items : List (DepItem Id)) (g : DepRes Id), GraphLE g (g.add items) := by
  intro items
  induction items with
  | nil => intro g; exact GraphLE.refl g
  | cons x rest ih =>
    intro g
    exact GraphLE.trans (addItem_le g x) (ih (g.addItem x))

/-- An absorbed item stays absorbed as the accumulator grows. -/
theorem Absorbed.mono {it : DepItem Id} {g g' : DepRes Id} (h : Absorbed it g)
    (hle : GraphLE g g') : Absorbed it g' := by
  refine ⟨hle.1 h.1, fun d hd => ?_⟩
  obtain ⟨s, hs, hds⟩ := h.2 d hd
  obtain ⟨s', hs', hsub⟩ := hle.2 it.id s hs
  exact ⟨s', hs', hsub hds⟩

/-- After folding the insertions of a dependency list, every listed
dependency is recorded in the entry. -/
theorem foldl_insertDep_mem (i : Id) :
    ∀ (l : List Id) (g : DepRes Id) (d : Id), d ∈ l →
      ∃ s, (l.foldl (fun acc x => acc.insertDep i x) g).deps i = some s ∧ d ∈ s := by
  intro l
  induction l with
  | nil => intro g d hd; cases hd
  | cons x rest ih =>
    intro g d hd
    rw [List.foldl_cons]
    rcases List.mem_cons.mp hd with rfl | hd'
    · have h1 : (g.insertDep i d).deps i = some (insert d ((g.deps i).getD ∅)) := by
        rw [DepRes.insertDep]
        simp
      obtain ⟨s', hs', hsub⟩ := (foldl_insertDep_le i rest (g.insertDep i d)).2 i _ h1
      exact ⟨s', hs', hsub (Finset.mem_insert_self _ _)⟩
    · exact ih (g.insertDep i x) d hd'

/-- An item is absorbed by its own ingestion. -/
theorem absorbed_addItem_self (g : DepRes Id) (it : DepItem Id) :
    Absorbed it (g.addItem it) := by
  rw [DepRes.addItem]
  by_cases hd : it.deps.isEmpty
  · rw [if_pos hd]
    refine ⟨Finset.mem_insert_self _ _, fun d hdmem => ?_⟩
    rw [List.isEmpty_iff.mp hd] at hdmem
    cases hdmem
  · rw [if_neg hd]
    refine ⟨Finset.mem_insert_self _ _, fun d hdmem => ?_⟩
    exact foldl_insertDep_mem it.id it.deps g d hdmem

/-- Every item of an ingested batch is absorbed by the result. -/
theorem absorbed_add :
    ∀ (items : List (DepItem Id)) (g : DepRes Id) (it : DepItem Id), it ∈ items →
      Absorbed it (g.add items) := by
  intro items
  induction items with
  | nil => intro g it hit; cases hit
  | cons x rest ih =>
    intro g it hit
    rcases List.mem_cons.mp hit with rfl | hit'
    · exact (absorbed_addItem_self g it).mono (graph_add_le rest (g.addItem it))
    · exact ih (g.addItem x) it hit'

/-- An insertion of an already recorded dependency changes nothing. -/
theorem insertDep_mem_eq (g : DepRes Id) (i d : Id) {s : Finset Id}
    (h : g.deps i = some s) (hd : d ∈ s) : g.insertDep i d = g := by
  rw [DepRes.insertDep]
  refine DepRes.ext rfl ?_
  funext x
  by_cases hx : x = i
  · subst hx
    simp [h, Finset.insert_eq_self.mpr hd]
  · simp [hx]

/-- Folding insertions of dependencies that are all already recorded
changes nothing. -/
theorem foldl_insertDep_absorbed_eq (i : Id) :
    ∀ (l : List Id) (g : DepRes Id),
      (∀ d ∈ l, ∃ s, g.deps i = some s ∧ d ∈ s) →
      l.foldl (fun acc x => acc.insertDep i x) g = g := by
  intro l
  induction l with
  | nil => intro g h; rfl
  | cons x rest ih =>
    intro g h
    obtain ⟨s, hs, hx⟩ := h x (List.mem_cons_self _ _)
    rw [List.foldl_cons, insertDep_mem_eq g i x hs hx]
    exact ih g fun d hd => h d (List.mem_cons_of_mem _ hd)

/-- Inserting an already known identifier changes nothing. -/
theorem insertId_mem_eq (g : DepRes Id) {i : Id} (h : i ∈ g.ids) : g.insertId i = g := by
  rw [DepRes.insertId]
  refine DepRes.ext ?_ rfl
  exact Finset.insert_eq_self.mpr h

/-- Ingesting an absorbed item changes nothing. -/
theorem addItem_absorbed_eq (g : DepRes Id) (it : DepItem Id) (h : Absorbed it g) :
    g.addItem it = g := by
  rw [DepRes.addItem]
  by_cases hd : it.deps.isEmpty
  · rw [if_pos hd]
    exact insertId_mem_eq g h.1
  · rw [if_neg hd, foldl_insertDep_absorbed_eq it.id it.deps g h.2]
    exact insertId_mem_eq g h.1

/-- Ingesting a batch of absorbed items changes nothing. -/
theorem add_absorbed_eq (g : DepRes Id) :
    ∀ items : List (DepItem Id), (∀ it ∈ items, Absorbed it g) → g.add items = g := by
  intro items
  induction items with
  | nil => intro h; rfl
  | cons x rest ih =>
    intro h
    rw [DepRes.add, List.foldl_cons, addItem_absorbed_eq g x (h x (List.mem_cons_self _ _))]
    exact ih fun it hit => h it (List.mem_cons_of_mem _ hit)

/-- Entry contents after folding the insertions of a non-empty dependency
list: the previous contents (or the fresh empty set) united with the
listed dependencies. -/
theorem foldl_insertDep_deps_eq (i : Id) :
    ∀ (l : List Id) (g : DepRes Id), l ≠ [] →
      (l.foldl (fun acc x => acc.insertDep i x) g).deps i =
        some ((g.deps i).getD ∅ ∪ l.toFinset) := by
  intro l
  induction l with
  | nil => intro g h; exact absurd rfl h
  | cons x rest ih =>
    intro g h
    rw [List.foldl_cons]
    have h1 : (g.insertDep i x).deps i = some (insert x ((g.deps i).getD ∅)) := by
      rw [DepRes.insertDep]
      simp
    by_cases hr : rest = []
    · subst hr
      rw [List.foldl_nil, h1]
      congr 1
      rw [List.toFinset_cons, List.toFinset_nil]
      ext y
      simp only [Finset.mem_insert, Finset.mem_union]
      tauto
    · rw [ih (g.insertDep i x) hr, h1]
      simp only [Option.getD_some]
      congr 1
      rw [List.toFinset_cons]
      ext y
      simp only [Finset.mem_union, Finset.mem_insert]
      tauto

/-- A single dependency insertion does not touch other entries. -/
theorem insertDep_deps_ne (g : DepRes Id) (i d j : Id) (h : j ≠ i) :
    (g.insertDep i d).deps j = g.deps j := by
  rw [DepRes.insertDep]
  simp only [if_neg h]

/-- Folding dependency insertions does not touch the identifier set. -/
theorem foldl_insertDep_ids (i : Id) :
    ∀ (l : List Id) (g : DepRes Id),
      (l.foldl (fun acc x => acc.insertDep i x) g).ids = g.ids := by
  intro l
  induction l with
  | nil => intro g; rfl
  | cons x rest ih =>
    intro g
    rw [List.foldl_cons, ih]
    rfl

/-- Ingesting an item with a non-empty dependency list unions the listed
dependencies into the entry keyed by its identifier. -/
theorem addItem_deps (g : DepRes Id) (it : DepItem Id) (h : it.deps ≠ []) :
    (g.addItem it).deps it.id = some ((g.deps it.id).getD ∅ ∪ it.deps.toFinset) := by
  rw [DepRes.addItem, if_neg (by simpa using h)]
  exact foldl_insertDep_deps_eq it.id it.deps g h

/-- Ingesting an item inserts exactly its identifier into the identifier
set. -/
theorem addItem_ids (g : DepRes Id) (it : DepItem Id) :
    (g.addItem it).ids = insert it.id g.ids := by
  rw [DepRes.addItem]
  by_cases hd : it.deps.isEmpty
  · rw [if_pos hd]
    rfl
  · rw [if_neg hd, DepRes.insertId]
    rw [foldl_insertDep_ids it.id it.deps g]

/-- C7 (claim): add() is idempotent and accumulating — re-adding the same
batch leaves the accumulator unchanged, and two add calls mentioning the
same identifier union their dependency lists into one entry (and insert
the identifier once). -/
theorem c7_theorem (g : DepRes Id) (items : List (DepItem Id)) (it1 it2 : DepItem Id)
    (hid : it1.id = it2.id) (h1 : it1.deps ≠ []) (h2 : it2.deps ≠ []) :
    (g.add items).add items = g.add items ∧
    ((g.add [it1]).add [it2]).deps it2.id =
      some (((g.deps it1.id).getD ∅ ∪ it1.deps.toFinset) ∪ it2.deps.toFinset) ∧
    ((g.add [it1]).add [it2]).ids = insert it2.id g.ids := by
  refine ⟨?_, ?_, ?_⟩
  · exact add_absorbed_eq (g.add items) items fun it hit => absorbed_add items g it hit
  · have e1 : g.add [it1] = g.addItem it1 := rfl
    have e2 : (g.addItem it1).add [it2] = (g.addItem it1).addItem it2 := rfl
    rw [e1, e2, addItem_deps _ it2 h2, ← hid, addItem_deps g it1 h1]
    simp only [Option.getD_some]
  · have e1 : g.add [it1] = g.addItem it1 := rfl
    have e2 : (g.addItem it1).add [it2] = (g.addItem it1).addItem it2 := rfl
    rw [e1, e2, addItem_ids, addItem_ids, ← hid, Finset.insert_idem]

/-- Witness for C7 at a concrete batch and two items sharing
identifier 5. -/
theorem c7_witness :
    (itA.id = itB.id ∧ itA.deps ≠ [] ∧ itB.deps ≠ []) ∧
    ((((DepRes.new : DepRes Nat).add itemsAB).add itemsAB =
        (DepRes.new : DepRes Nat).add itemsAB) ∧
      (((DepRes.new : DepRes Nat).add [itA]).add [itB]).deps itB.id =
        some ((((DepRes.new : DepRes Nat).deps itA.id).getD ∅ ∪ itA.deps.toFinset) ∪
          itB.deps.toFinset) ∧
      (((DepRes.new : DepRes Nat).add [itA]).add [itB]).ids =
        insert itB.id (DepRes.new : DepRes Nat).ids) :=
  ⟨⟨rfl, by decide, by decide⟩,
    c7_theorem DepRes.new itemsAB itA itB rfl (by decide) (by decide)⟩

/-- Two key-sorted lists that are permutations of each other and have
duplicate-free keys are equal. -/
theorem sorted_perm_keys_nodup_eq {β : Type} :
    ∀ {l1 l2 : List (Nat × β)}, l1.Perm l2 →
      l1.Pairwise (fun a b => a.1 ≤ b.1) → l2.Pairwise (fun a b => a.1 ≤ b.1) →
      (l2.map Prod.fst).Nodup → l1 = l2 := by
  intro l1
  induction l1 with
  | nil => intro l2 hp _ _ _; exact (hp.symm.eq_nil).symm
  | cons a t1 ih =>
    intro l2 hp hs1 hs2 hnd
    cases l2 with
    | nil => exact List.noConfusion hp.eq_nil
    | cons b t2 =>
      have haml2 : a ∈ b :: t2 := hp.mem_iff.mp (List.mem_cons_self _ _)
      have hbml1 : b ∈ a :: t1 := hp.mem_iff.mpr (List.mem_cons_self _ _)
      have hab1 : a.1 ≤ b.1 := by
        rcases List.mem_cons.mp hbml1 with heq | hb
        · rw [heq]
        · exact List.rel_of_pairwise_cons hs1 hb
      have hba1 : b.1 ≤ a.1 := by
        rcases List.mem_cons.mp haml2 with heq | ha
        · rw [heq]
        · exact List.rel_of_pairwise_cons hs2 ha
      have hk : a.1 = b.1 := Nat.le_antisymm hab1 hba1
      rw [List.map_cons, List.nodup_cons] at hnd
      have hab : a = b := by
        rcases List.mem_cons.mp haml2 with heq | ha
        · exact heq
        · exfalso
          have hmk : a.1 ∈ t2.map Prod.fst := List.mem_map_of_mem _ ha
          rw [hk] at hmk
          exact hnd.1 hmk
      subst hab
      have ht : t1.Perm t2 := hp.cons_inv
      rw [ih ht hs1.of_cons hs2.of_cons hnd.2]

/-- A pointwise enumeration keeps the level numbers. -/
theorem forall₂_fst_eq {res : List (Nat × Finset Id)} {es₀ : List (Nat × List Id)}
    (hf : List.Forall₂ (fun p e => p.1 = e.1 ∧ SetList p.2 e.2) res es₀) :
    res.map Prod.fst = es₀.map Prod.fst := by
  induction hf with
  | nil => rfl
  | cons hpe hrest ih =>
    rw [List.map_cons, List.map_cons, hpe.1, ih]

/-- A pointwise enumeration lists exactly the members of the level
sets. -/
theorem forall₂_mem_iff {res : List (Nat × Finset Id)} {es₀ : List (Nat × List Id)}
    (hf : List.Forall₂ (fun p e => p.1 = e.1 ∧ SetList p.2 e.2) res es₀) (id : Id) :
    (∃ e ∈ es₀, id ∈ e.2) ↔ ∃ p ∈ res, id ∈ p.2 := by
  induction hf with
  | nil => simp
  | @cons p e res' es' hpe hrest ih =>
    simp only [List.mem_cons]
    have hiff : id ∈ e.2 ↔ id ∈ p.2 := by
      rw [← hpe.2.2]
      exact (List.mem_toFinset).symm
    constructor
    · rintro ⟨e', (rfl | he'), hid⟩
      · exact ⟨p, Or.inl rfl, hiff.mp hid⟩
      · obtain ⟨p', hp', hid'⟩ := ih.mp ⟨e', he', hid⟩
        exact ⟨p', Or.inr hp', hid'⟩
    · rintro ⟨p', (rfl | hp'), hid⟩
      · exact ⟨e, Or.inl rfl, hiff.mpr hid⟩
      · obtain ⟨e', he', hid'⟩ := ih.mpr ⟨p', hp', hid⟩
        exact ⟨e', Or.inr he', hid'⟩

/-- Sorting any permutation of a key-contiguous enumeration by level
number recovers the enumeration itself. -/
theorem insertionSort_eq_of_perm {β : Type} {res es : List (Nat × β)}
    (hkeys : res.map Prod.fst = List.range res.length) (hperm : es.Perm res) :
    List.insertionSort (fun a b => a.1 ≤ b.1) es = res := by
  have h1 : (List.insertionSort (fun a b => a.1 ≤ b.1) es).Perm res :=
    (List.perm_insertionSort _ es).trans hperm
  have h2 : (List.insertionSort (fun a b => a.1 ≤ b.1) es).Pairwise fun a b => a.1 ≤ b.1 :=
    List.sorted_insertionSort _ es
  have h3 : res.Pairwise fun a b => a.1 ≤ b.1 := by
    have h4 : (res.map Prod.fst).Pairwise (· < ·) := by
      rw [hkeys]
      exact List.pairwise_lt_range _
    exact (List.pairwise_map.mp h4).imp fun hlt => le_of_lt hlt
  have h6 : (res.map Prod.fst).Nodup := by
    rw [hkeys]
    exact List.nodup_range _
  exact sorted_perm_keys_nodup_eq h1 h2 h3 h6

/-- C8 (claim): for every resolved result, sorted_by_level() flattens a
pointwise enumeration of the levels in ascending level order: the output
is the concatenation of the per-level enumerations, level 0 first, and it
contains exactly the identifiers of all levels.  Ordering within a level
is whatever the level's set yielded. -/
theorem c8_theorem (g : DepRes Id) (res : List (Nat × Finset Id)) (es : List (Nat × List Id))
    (h : g.resolve = .ok res) (hes : CollectedFrom res es) :
    ∃ es₀, List.Forall₂ (fun p e => p.1 = e.1 ∧ SetList p.2 e.2) res es₀ ∧
      sortedByLevel es = es₀.flatMap Prod.snd ∧
      (∀ id, id ∈ sortedByLevel es ↔ ∃ p ∈ res, id ∈ p.2) := by
  obtain ⟨es₀, hf, hperm⟩ := hes
  have hkeys0 : es₀.map Prod.fst = List.range es₀.length := by
    rw [← forall₂_fst_eq hf, ← hf.length_eq]
    exact resolve_ok_keys g res h
  have heq : sortedByLevel es = es₀.flatMap Prod.snd := by
    rw [sortedByLevel, insertionSort_eq_of_perm hkeys0 hperm]
  refine ⟨es₀, hf, heq, fun id => ?_⟩
  rw [heq, List.mem_flatMap]
  exact forall₂_mem_iff hf id

/-- Witness for C8 at the concrete chain 0 ← 1, collected in descending
order. -/
theorem c8_witness :
    (gChain2.resolve = .ok gChain2Res ∧
      CollectedFrom gChain2Res [(1, [1]), (0, [0])]) ∧
    (∃ es₀, List.Forall₂ (fun p e => p.1 = e.1 ∧ SetList p.2 e.2) gChain2Res es₀ ∧
      sortedByLevel [(1, [1]), (0, [0])] = es₀.flatMap Prod.snd ∧
      (∀ id, id ∈ sortedByLevel [(1, [1]), (0, [0])] ↔ ∃ p ∈ gChain2Res, id ∈ p.2)) := by
  have hcf : CollectedFrom gChain2Res [(1, [1]), (0, [0])] :=
    ⟨[(0, [0]), (1, [1])],
      List.Forall₂.cons ⟨rfl, by decide, by decide⟩
        (List.Forall₂.cons ⟨rfl, by decide, by decide⟩ List.Forall₂.nil),
      by decide⟩
  exact ⟨⟨gChain2_resolve, hcf⟩,
    c8_theorem gChain2 gChain2Res [(1, [1]), (0, [0])] gChain2_resolve hcf⟩
